import Mathlib

/-!
Verification of the rust-udcn NDN forwarder core against its specification.

The development shallowly embeds the Rust sources:
- rust-udcn-common/src/tlv.rs        (TLV codec primitives)
- rust-udcn-common/src/ndn.rs        (Name / Interest / Data codec)
- rust-udcn-ebpf/src/ndn.rs          (kernel-side FNV-1a name hashing)
- rust-udcn-ebpf/src/fib.rs          (kernel-side longest prefix match)
- rust-udcn-ebpf/src/main.rs         (XDP Interest processing path)
- rust-udcn-xdp/src/maps.rs          (userspace FIB wrapper and its hash)
- rust-udcn-quic/src/fragmentation.rs (fragmentation and reassembly)
- rust-udcn-quic/src/face.rs         (pending-interest waiter map)

Bytes are modelled as Nat (with explicit bounds where the Rust type is
u8/u16/u32); byte buffers are List Nat; fallible Rust functions returning
Result are modelled with Except String.
-/

set_option maxRecDepth 4096

/-! ## TLV primitives (rust-udcn-common/src/tlv.rs) -/

/-- TLV type code for an Interest packet (0x05). -/
def TLV_INTEREST : Nat := 5
/-- TLV type code for a Data packet (0x06). -/
def TLV_DATA : Nat := 6
/-- TLV type code for a Name (0x07). -/
def TLV_NAME : Nat := 7
/-- TLV type code for a name component (0x08). -/
def TLV_COMPONENT : Nat := 8
/-- TLV type code for the Selectors block (0x09). -/
def TLV_SELECTORS : Nat := 9
/-- TLV type code for the Nonce (0x0A). -/
def TLV_NONCE : Nat := 10
/-- TLV type code for the InterestLifetime (0x0C). -/
def TLV_INTEREST_LIFETIME : Nat := 12
/-- TLV type code for the Content block (0x15). -/
def TLV_CONTENT : Nat := 21
/-- TLV type code for the HopLimit (0x22), written literally in Interest::encode. -/
def TLV_HOP_LIMIT : Nat := 34

/-- Embedding of encode_tlv_length (tlv.rs lines 36-46): one byte below 253,
marker 253 plus two big-endian bytes up to 65535, otherwise marker 254 plus
four big-endian bytes of the length truncated to u32. -/
def encode_tlv_length (length : Nat) : List Nat :=
  if length < 253 then [length]
  else if length ≤ 65535 then [253, length / 256 % 256, length % 256]
  else [254, length / 16777216 % 256, length / 65536 % 256, length / 256 % 256, length % 256]

/-- Embedding of decode_tlv_type (tlv.rs lines 53-58): read one byte, error on
an empty buffer. Returns the byte and the unconsumed remainder. -/
def decode_tlv_type : List Nat → Except String (Nat × List Nat)
  | [] => .error "Buffer underflow when decoding TLV type"
  | b :: rest => .ok (b, rest)

/-- Embedding of decode_tlv_length (tlv.rs lines 61-83): first byte 0..=252 is
the length; 253 is followed by a 16-bit big-endian length; 254 by a 32-bit
big-endian length; 255 is rejected. Each wider form is range-checked against
the remaining bytes before being read. -/
def decode_tlv_length : List Nat → Except String (Nat × List Nat)
  | [] => .error "Buffer underflow when decoding TLV length"
  | b :: rest =>
    if b ≤ 252 then .ok (b, rest)
    else if b = 253 then
      match rest with
      | b1 :: b2 :: rest2 => .ok (b1 * 256 + b2, rest2)
      | _ => .error "Buffer underflow when decoding 16-bit TLV length"
    else if b = 254 then
      match rest with
      | b1 :: b2 :: b3 :: b4 :: rest2 =>
        .ok (((b1 * 256 + b2) * 256 + b3) * 256 + b4, rest2)
      | _ => .error "Buffer underflow when decoding 32-bit TLV length"
    else .error "64-bit TLV lengths not supported"

/-- A TLV element: type code and value bytes (tlv.rs lines 91-94). -/
structure TlvElement where
  tlv_type : Nat
  value : List Nat
deriving Repr, DecidableEq

/-- Embedding of TlvElement::encode (tlv.rs lines 114-118): type byte, then the
variable-width length of the value, then the value bytes. -/
def TlvElement.encode (e : TlvElement) : List Nat :=
  e.tlv_type :: encode_tlv_length e.value.length ++ e.value

/-- Embedding of TlvElement::decode (tlv.rs lines 121-140): require at least a
two-byte header, read type and length, range-check the length against the
remaining bytes, then slice off the value. -/
def TlvElement.decode (buf : List Nat) : Except String (TlvElement × List Nat) :=
  if buf.length < 2 then .error "Buffer too small for TLV header"
  else
    match decode_tlv_type buf with
    | .error m => .error m
    | .ok (t, r1) =>
      match decode_tlv_length r1 with
      | .error m => .error m
      | .ok (len, r2) =>
        if r2.length < len then
          .error "Buffer underflow: TLV value requires more bytes than available"
        else .ok (⟨t, r2.take len⟩, r2.drop len)

instance {ε α : Type} [DecidableEq ε] [DecidableEq α] : DecidableEq (Except ε α) :=
  fun x y =>
    match x, y with
    | .error a, .error b =>
      if h : a = b then isTrue (by rw [h]) else isFalse (by simp [h])
    | .ok a, .ok b =>
      if h : a = b then isTrue (by rw [h]) else isFalse (by simp [h])
    | .error _, .ok _ => isFalse (by simp)
    | .ok _, .error _ => isFalse (by simp)

/-- Well-formedness of a TLV element for the codec roundtrip: the value length
fits in the u32 length field used by the wire format. -/
def TlvElement.wf (e : TlvElement) : Prop := e.value.length < 4294967296

instance (e : TlvElement) : Decidable e.wf := by
  unfold TlvElement.wf; infer_instance

/-! ## Generic TLV element loop

Interest::decode, Data::decode and Name::from_tlv all run the same loop shape:
while the buffer has remaining bytes, decode one TlvElement and feed it to a
state-updating step (which may fail). The loop is embedded with a structural
fuel argument equal to the buffer length; tlvFold_encode_append proves the
loop satisfies exactly the recurrence of the source loop, so the fuel never
runs out on the traces the source can take. -/

/-- Fuel-indexed TLV element loop. The fuel only serves to make the recursion
structural; decoding one element always consumes at least two bytes, so fuel
equal to the buffer length is always sufficient. -/
def tlvFoldF {σ : Type} (step : σ → TlvElement → Except String σ) :
    Nat → σ → List Nat → Except String σ
  | _, s, [] => .ok s
  | 0, _, _ :: _ => .error "TLV loop out of fuel"
  | fuel + 1, s, b :: bs =>
    match TlvElement.decode (b :: bs) with
    | .error m => .error m
    | .ok (e, rest) =>
      match step s e with
      | .error m => .error m
      | .ok s2 => tlvFoldF step fuel s2 rest

/-- TLV element loop over a whole buffer, as run by the source while-loops. -/
def tlvFold {σ : Type} (step : σ → TlvElement → Except String σ)
    (s : σ) (buf : List Nat) : Except String σ :=
  tlvFoldF step buf.length s buf

/-- Concatenation of the encodings of a list of elements. -/
def encodeElems (es : List TlvElement) : List Nat :=
  (es.map TlvElement.encode).flatten

/-- Plain structural fold of the step function over an element list. The TLV
loop over encodeElems es agrees with it (tlvFold_encodeElems). -/
def stepList {σ : Type} (step : σ → TlvElement → Except String σ) :
    σ → List TlvElement → Except String σ
  | s, [] => .ok s
  | s, e :: es =>
    match step s e with
    | .error m => .error m
    | .ok s2 => stepList step s2 es

/-! ## Names (rust-udcn-common/src/ndn.rs lines 25-165)

A NameComponent is a byte string; a Name is a list of components. -/

/-- A Name: an ordered list of opaque byte-string components
(ndn.rs lines 68-71). -/
structure Name where
  components : List (List Nat)
deriving Repr, DecidableEq

/-- Embedding of NameComponent::to_tlv (ndn.rs lines 37-39): a COMPONENT
element whose value is the component bytes. -/
def componentToTlv (c : List Nat) : TlvElement := ⟨TLV_COMPONENT, c⟩

/-- Embedding of NameComponent::from_tlv (ndn.rs lines 41-50): accept only the
COMPONENT type and take the value bytes. -/
def componentFromTlv (e : TlvElement) : Except String (List Nat) :=
  if e.tlv_type ≠ TLV_COMPONENT then .error "Expected name component TLV type 8"
  else .ok e.value

/-- Embedding of Name::to_tlv (ndn.rs lines 140-146): a NAME element whose
value is the concatenation of the encoded component elements. -/
def Name.to_tlv (n : Name) : TlvElement :=
  ⟨TLV_NAME, encodeElems (n.components.map componentToTlv)⟩

/-- Loop step of Name::from_tlv (ndn.rs lines 157-162): parse each inner
element as a component and push it. -/
def componentStep (acc : List (List Nat)) (e : TlvElement) : Except String (List (List Nat)) :=
  match componentFromTlv e with
  | .error m => .error m
  | .ok c => .ok (acc ++ [c])

/-- Embedding of Name::from_tlv (ndn.rs lines 148-164): check the NAME type,
then loop over the value decoding components. -/
def Name.from_tlv (e : TlvElement) : Except String Name :=
  if e.tlv_type ≠ TLV_NAME then .error "Expected name TLV type 7"
  else
    match tlvFold componentStep [] e.value with
    | .error m => .error m
    | .ok comps => .ok ⟨comps⟩

/-- Embedding of Name::is_prefix_of (ndn.rs lines 133-138): zip the two
component lists and require pointwise equality. Note the source performs no
length comparison; zip silently truncates to the shorter list. -/
def Name.is_prefix_of (a b : Name) : Bool :=
  (a.components.zip b.components).all (fun p => p.1 = p.2)

/-- Well-formedness of a Name mirroring the bounds the source enforces when
names are built (MAX_NAME_COMPONENTS = 16, MAX_NAME_COMPONENT_LENGTH = 255,
ndn.rs lines 15-17 and 80-104). -/
def Name.wf (n : Name) : Prop :=
  n.components.length ≤ 16 ∧ ∀ c ∈ n.components, c.length ≤ 255

instance (n : Name) : Decidable n.wf := by
  unfold Name.wf; infer_instance

/-! ## Interest and Data packets (rust-udcn-common/src/ndn.rs lines 189-467)

The Rust field names can_be_prefix and must_be_fresh are rendered in camel
case here; Data's creation_time field (a monotonic Instant, never serialised,
regenerated locally on decode per ndn.rs lines 364-366 and 464) is omitted
from the embedding. -/

/-- An Interest packet (ndn.rs lines 189-197). -/
structure Interest where
  name : Name
  nonce : Nat
  lifetime_ms : Nat
  hop_limit : Option Nat
  canBePrefix : Bool
  mustBeFresh : Bool
deriving Repr, DecidableEq

/-- A Data packet (ndn.rs lines 358-367) without the untransmitted
creation_time field. -/
structure Data where
  name : Name
  content : List Nat
  ttl_ms : Nat
deriving Repr, DecidableEq

/-- Big-endian 4-byte rendering of a u32, as written by BufMut::put_u32. -/
def natToBe4 (x : Nat) : List Nat :=
  [x / 16777216 % 256, x / 65536 % 256, x / 256 % 256, x % 256]

/-- Byte rendering of a bool cast to u8. -/
def boolByte (b : Bool) : Nat := if b then 1 else 0

/-- Big-endian value of a byte list, as computed by the lifetime decoder that
right-aligns up to four bytes into a u32 (ndn.rs lines 311-318). -/
def bytesToBe (bs : List Nat) : Nat := bs.foldl (fun a b => a * 256 + b) 0

/-- Embedding of Interest::encode (ndn.rs lines 245-276): Name, Selectors
(two bytes), Nonce (4 bytes big-endian), InterestLifetime (4 bytes big-endian),
then HopLimit (1 byte) only when present, all wrapped in an INTEREST element.
The source appends each element's encoding to one buffer; encodeElems is that
concatenation. -/
def Interest.encode (i : Interest) : List Nat :=
  TlvElement.encode ⟨TLV_INTEREST,
    encodeElems ([i.name.to_tlv,
                  ⟨TLV_SELECTORS, [boolByte i.canBePrefix, boolByte i.mustBeFresh]⟩,
                  ⟨TLV_NONCE, natToBe4 i.nonce⟩,
                  ⟨TLV_INTEREST_LIFETIME, natToBe4 i.lifetime_ms⟩]
      ++ match i.hop_limit with
         | some h => [⟨TLV_HOP_LIMIT, [h]⟩]
         | none => [])⟩

/-- Loop state of Interest::decode (ndn.rs lines 290-296). -/
structure InterestAcc where
  name : Option Name
  nonce : Option Nat
  lifetime_ms : Option Nat
  hop_limit : Option Nat
  canBePrefix : Bool
  mustBeFresh : Bool
deriving Repr, DecidableEq

/-- Initial loop state of Interest::decode. -/
def interestInit : InterestAcc := ⟨none, none, none, none, false, false⟩

/-- Loop body of Interest::decode (ndn.rs lines 298-333): dispatch on the
element type; the nonce is taken only from an exactly-4-byte NONCE value; the
lifetime from a 1-to-4-byte LIFETIME value right-aligned big-endian; selectors
need at least two bytes; a nonempty HOP_LIMIT value yields its first byte;
unknown types are skipped. Only Name::from_tlv can fail. -/
def interestStep (acc : InterestAcc) (e : TlvElement) : Except String InterestAcc :=
  if e.tlv_type = TLV_NAME then
    match Name.from_tlv e with
    | .error m => .error m
    | .ok n => .ok { acc with name := some n }
  else if e.tlv_type = TLV_NONCE then
    .ok (match e.value with
      | [b0, b1, b2, b3] =>
        { acc with nonce := some (((b0 * 256 + b1) * 256 + b2) * 256 + b3) }
      | _ => acc)
  else if e.tlv_type = TLV_INTEREST_LIFETIME then
    .ok (if 1 ≤ e.value.length ∧ e.value.length ≤ 4
      then { acc with lifetime_ms := some (bytesToBe e.value) } else acc)
  else if e.tlv_type = TLV_SELECTORS then
    .ok (match e.value with
      | b0 :: b1 :: _ => { acc with canBePrefix := b0 != 0, mustBeFresh := b1 != 0 }
      | _ => acc)
  else if e.tlv_type = TLV_HOP_LIMIT then
    .ok (match e.value with
      | h :: _ => { acc with hop_limit := some h }
      | [] => acc)
  else .ok acc

/-- Embedding of Interest::decode (ndn.rs lines 279-343): decode the outer
element (trailing bytes ignored), require the INTEREST type, loop over the
inner elements, then apply the defaults - nonce 0, lifetime 4000 ms - and fail
only if no Name was seen. -/
def Interest.decode (bytes : List Nat) : Except String Interest :=
  match TlvElement.decode bytes with
  | .error m => .error m
  | .ok (outer, _) =>
    if outer.tlv_type ≠ TLV_INTEREST then .error "Expected Interest type 5"
    else
      match tlvFold interestStep interestInit outer.value with
      | .error m => .error m
      | .ok acc =>
        match acc.name with
        | none => .error "Interest missing name"
        | some n =>
          .ok ⟨n, acc.nonce.getD 0, acc.lifetime_ms.getD 4000, acc.hop_limit,
               acc.canBePrefix, acc.mustBeFresh⟩

/-- Embedding of Data::encode (ndn.rs lines 418-429): Name then Content,
wrapped in a DATA element. No other field is written. -/
def Data.encode (d : Data) : List Nat :=
  TlvElement.encode ⟨TLV_DATA,
    encodeElems [d.name.to_tlv, ⟨TLV_CONTENT, d.content⟩]⟩

/-- Loop state of Data::decode (ndn.rs lines 444-445): optional name and
content initialised to the empty byte string. -/
structure DataAcc where
  name : Option Name
  content : List Nat
deriving Repr, DecidableEq

/-- Loop body of Data::decode (ndn.rs lines 447-458): record the Name and the
Content value, skip everything else. -/
def dataStep (acc : DataAcc) (e : TlvElement) : Except String DataAcc :=
  if e.tlv_type = TLV_NAME then
    match Name.from_tlv e with
    | .error m => .error m
    | .ok n => .ok { acc with name := some n }
  else if e.tlv_type = TLV_CONTENT then .ok { acc with content := e.value }
  else .ok acc

/-- Embedding of Data::decode (ndn.rs lines 432-466): decode the outer element,
require the DATA type, loop over inner elements; the result always carries
ttl_ms = 10000, the literal written at ndn.rs line 463. -/
def Data.decode (bytes : List Nat) : Except String Data :=
  match TlvElement.decode bytes with
  | .error m => .error m
  | .ok (outer, _) =>
    if outer.tlv_type ≠ TLV_DATA then .error "Expected Data type 6"
    else
      match tlvFold dataStep ⟨none, []⟩ outer.value with
      | .error m => .error m
      | .ok acc =>
        match acc.name with
        | none => .error "Data missing name"
        | some n => .ok ⟨n, acc.content, 10000⟩

/-- Well-formedness of an Interest: name bounds as enforced by the source name
constructors, and field values within their Rust integer types (nonce and
lifetime_ms are u32, hop_limit is u8). -/
def Interest.wfP (i : Interest) : Prop :=
  i.name.wf ∧ i.nonce < 4294967296 ∧ i.lifetime_ms < 4294967296 ∧
    ∀ h ∈ i.hop_limit, h < 256

instance (i : Interest) : Decidable i.wfP := by
  unfold Interest.wfP; infer_instance

/-- Well-formedness of a Data packet: name bounds and a content small enough
for the u32 TLV length field. -/
def Data.wfP (d : Data) : Prop := d.name.wf ∧ d.content.length < 2147483648

instance (d : Data) : Decidable d.wfP := by
  unfold Data.wfP; infer_instance

/-! ## Name hashing (rust-udcn-ebpf/src/ndn.rs lines 41-53 and
rust-udcn-xdp/src/maps.rs lines 197-211) -/

/-- One FNV-1a step: xor the byte in, multiply by the FNV prime, wrap to u32. -/
def fnvStep (h b : Nat) : Nat := ((h ^^^ b) * 16777619) % 4294967296

/-- FNV-1a over a byte list, offset basis 2166136261, prime 16777619,
32-bit wrapping - the algorithm both hash sites implement. -/
def fnv1a (bs : List Nat) : Nat := bs.foldl fnvStep 2166136261

/-- Embedding of compute_name_hash (rust-udcn-ebpf/src/ndn.rs lines 41-53):
FNV-1a over the first len bytes of the supplied buffer (the while loop stops
at len or at the end of the buffer, whichever comes first). -/
def compute_name_hash (data : List Nat) (len : Nat) : Nat :=
  (data.take len).foldl fnvStep 2166136261

/-- Printability test used by the NameComponent Display instance
(ndn.rs line 55): ASCII graphic or space. -/
def printableByte (b : Nat) : Bool := (33 ≤ b && b ≤ 126) || b == 32

/-- Lowercase hex digit of a nibble, as produced by formatting with 02x. -/
def hexDigit (n : Nat) : Nat := if n < 10 then 48 + n else 87 + n

/-- Byte rendering of the Display form of one name component (ndn.rs lines
53-66): the raw bytes when every byte is printable, otherwise the characters
0x followed by two lowercase hex digits per byte. -/
def componentDisplayBytes (c : List Nat) : List Nat :=
  if c.all printableByte then c
  else 48 :: 120 :: c.flatMap (fun b => [hexDigit (b / 16), hexDigit (b % 16)])

/-- Byte rendering of the Display form of a Name (ndn.rs lines 167-177):
a single slash for the empty name, otherwise each component preceded by a
slash. -/
def nameDisplayBytes (n : Name) : List Nat :=
  if n.components = [] then [47]
  else n.components.flatMap (fun c => 47 :: componentDisplayBytes c)

/-- Embedding of Fib::compute_prefix_hash (rust-udcn-xdp/src/maps.rs lines
197-211): FNV-1a over the bytes of the textual form of the name produced by
name.to_string(). -/
def compute_prefix_hash (n : Name) : Nat := fnv1a (nameDisplayBytes n)

/-! ## FIB tables (rust-udcn-ebpf/src/fib.rs and rust-udcn-xdp/src/maps.rs)

An eBPF HashMap holds at most one value per key; it is modelled as an
association list queried with find?. -/

/-- Key of the FIB map (rust-udcn-common/src/types.rs lines 141-146). -/
structure FibKey where
  prefix_hash : Nat
  prefix_len : Nat
deriving Repr, DecidableEq

/-- Value of the FIB map (types.rs lines 151-156): next-hop face and cost. -/
structure FibValue where
  face_id : Nat
  cost : Nat
deriving Repr, DecidableEq

/-- A FIB map state: association list with at most one binding consulted per
key (the first, as in a hash map). -/
abbrev FibTable : Type := List (FibKey × FibValue)

/-- HashMap::get on the modelled map. -/
def fibGet (t : FibTable) (k : FibKey) : Option FibValue :=
  (List.find? (fun p => p.1 = k) t).map Prod.snd

/-- Embedding of longest_prefix_match (rust-udcn-ebpf/src/fib.rs lines 23-51):
probe prefix_len = 16 down to 0, always with the single name_hash the caller
supplied, tracking the hit with the greatest prefix_len; return its face_id.
Err(()) on no hit is modelled as none. -/
def lpmFoldStep (t : FibTable) (name_hash : Nat) (best : Option (FibValue × Nat))
    (prefix_len : Nat) : Option (FibValue × Nat) :=
  match fibGet t ⟨name_hash, prefix_len⟩ with
  | some value =>
    match best with
    | none => some (value, prefix_len)
    | some (bv, bl) => if prefix_len > bl then some (value, prefix_len) else some (bv, bl)
  | none => best

def longest_prefix_match (t : FibTable) (name_hash : Nat) : Option Nat :=
  (((List.range 17).reverse).foldl (lpmFoldStep t name_hash) none).map (fun p => p.1.face_id)

/-- Embedding of fib::find_next_hop (rust-udcn-ebpf/src/fib.rs lines 76-78). -/
def find_next_hop (t : FibTable) (name_hash : Nat) : Option Nat :=
  longest_prefix_match t name_hash

/-- Embedding of Fib::get_route (rust-udcn-xdp/src/maps.rs lines 170-186):
probe the single key built from compute_prefix_hash of the whole name and the
component count cast to u8. -/
def get_route (t : FibTable) (np : Name) : Option FibValue :=
  fibGet t ⟨compute_prefix_hash np, np.components.length % 256⟩

/-- Embedding of Fib::add_route (rust-udcn-xdp/src/maps.rs lines 130-148):
insert at the key built from compute_prefix_hash and the component count;
HashMap::insert replaces any previous binding. -/
def add_route (t : FibTable) (np : Name) (face_id : Nat) (cost : Nat) : FibTable :=
  (⟨compute_prefix_hash np, np.components.length % 256⟩, ⟨face_id, cost⟩)
    :: t.filter (fun p =>
        p.1 ≠ ⟨compute_prefix_hash np, np.components.length % 256⟩)

/-- Probe sequence asserted by the specification for a FIB lookup of name N
with k components: keys (hash of the length-j prefix, j) for j = k down to 0,
where each hash is FNV-1a over that prefix's concatenated component bytes. -/
def claimedProbeKeys (n : Name) : List FibKey :=
  ((List.range (n.components.length + 1)).reverse).map
    (fun l => ⟨fnv1a ((n.components.take l).flatten), l⟩)

/-- Lookup behaviour asserted by the specification: first hit along the
claimed probe sequence. -/
def claimedLpm (t : FibTable) (n : Name) : Option Nat :=
  (claimedProbeKeys n).findSome? (fun k => (fibGet t k).map FibValue.face_id)

/-- First-hit-descending reading of the eBPF loop, used to state what the
code actually computes. -/
def descendingProbe (t : FibTable) (name_hash : Nat) : Option Nat :=
  ((List.range 17).reverse).findSome?
    (fun l => (fibGet t ⟨name_hash, l⟩).map FibValue.face_id)

/-! ## XDP Interest processing (rust-udcn-ebpf/src/main.rs lines 101-180)

The kernel tables are modelled as association lists with hash-map semantics
(one binding per key; insert replaces). The Interest branch of try_ndn_xdp is
a pure function of the table contents and the packet-derived inputs. -/

/-- Key of the CS map (rust-udcn-common/src/types.rs lines 161-166). -/
structure CsKey where
  name_hash : Nat
  name_len : Nat
deriving Repr, DecidableEq

/-- Value of the CS map (types.rs lines 171-180). -/
structure CsValue where
  content_hash : Nat
  timestamp : Nat
  content_size : Nat
  ttl_ms : Nat
deriving Repr, DecidableEq

/-- Key of the PIT map (types.rs lines 115-122). -/
structure PitKey where
  name_hash : Nat
  name_len : Nat
  nonce : Nat
deriving Repr, DecidableEq

/-- Value of the PIT map as constructed by try_ndn_xdp (main.rs lines 143-146):
arrival timestamp and ingress face id. -/
structure PitValue where
  arrival_time : Nat
  face_id : Nat
deriving Repr, DecidableEq

/-- The XDP verdicts of interest here (types.rs lines 63-74). -/
inductive XdpAction where
  | aborted
  | drop
  | pass
  | tx
  | redirect
deriving Repr, DecidableEq

/-- A CS map state. -/
abbrev CsTable : Type := List (CsKey × CsValue)

/-- A PIT map state. -/
abbrev PitTable : Type := List (PitKey × PitValue)

/-- HashMap::get on the modelled CS map. -/
def csGet (t : CsTable) (k : CsKey) : Option CsValue :=
  (List.find? (fun p => p.1 = k) t).map Prod.snd

/-- Embedding of cs::lookup (rust-udcn-ebpf/src/cs.rs lines 24-41): probe the
key built from the name hash with name_len hard-coded to 0 and report
presence. -/
def cs_lookup (t : CsTable) (name_hash : Nat) : Bool :=
  (csGet t ⟨name_hash, 0⟩).isSome

/-- HashMap::get on the modelled PIT map. -/
def pitGet (t : PitTable) (k : PitKey) : Option PitValue :=
  (List.find? (fun p => p.1 = k) t).map Prod.snd

/-- Embedding of pit::has_duplicate (rust-udcn-ebpf/src/pit.rs lines 106-108). -/
def pit_has_duplicate (t : PitTable) (k : PitKey) : Bool :=
  (pitGet t k).isSome

/-- Embedding of pit::add_entry (pit.rs lines 88-101): map insert, replacing
any binding at the same key. The LRU map insert of the source only fails on
kernel-level errors, which the model leaves out; claim C4 assumes the
insertion succeeded in any case. -/
def pit_add_entry (t : PitTable) (k : PitKey) (v : PitValue) : PitTable :=
  (k, v) :: t.filter (fun p => p.1 ≠ k)

/-- Packet-derived inputs of the Interest branch of try_ndn_xdp: the values
the parser extracted plus the ingress interface index and the timestamp. -/
structure XdpInterestInput where
  name_hash : Nat
  name_len : Nat
  nonce : Nat
  ingress_ifindex : Nat
  timestamp : Nat
deriving Repr, DecidableEq

/-- Embedding of the Interest branch of try_ndn_xdp (main.rs lines 101-180):
CS hit passes to userspace; a PIT duplicate is dropped; otherwise the Interest
is inserted into the PIT and the packet is passed to userspace whether the FIB
lookup hits (line 171) or misses (line 176). The returned pair is the XDP
verdict and the PIT state after the call. -/
def process_interest (cs : CsTable) (pit : PitTable) (fib : FibTable)
    (inp : XdpInterestInput) : XdpAction × PitTable :=
  if cs_lookup cs inp.name_hash then (.pass, pit)
  else
    let pit_key : PitKey := ⟨inp.name_hash, inp.name_len, inp.nonce⟩
    if pit_has_duplicate pit pit_key then (.drop, pit)
    else
      let pit_value : PitValue := ⟨inp.timestamp, inp.ingress_ifindex % 65536⟩
      let pit2 := pit_add_entry pit pit_key pit_value
      match find_next_hop fib inp.name_hash with
      | some _ => (.pass, pit2)
      | none => (.pass, pit2)

/-! ## Fragmentation (rust-udcn-quic/src/fragmentation.rs) -/

/-- Fuel-indexed fragmentation loop. The source while-loop advances by
fragment_size bytes per iteration; fuel equal to the packet length is always
sufficient when fragment_size is at least 1. For fragment_size = 0 the source
loop never terminates; that case is out of scope of every claim and the model
returns an empty list there. -/
def fragmentF : Nat → List Nat → Nat → List (List Nat)
  | _, [], _ => []
  | 0, _ :: _, _ => []
  | fuel + 1, hd :: tl, s =>
    if s = 0 then []
    else (hd :: tl).take s :: fragmentF fuel ((hd :: tl).drop s) s

/-- Embedding of fragment_packet (fragmentation.rs lines 13-27): slice the
packet into consecutive chunks of at most fragment_size bytes. -/
def fragment_packet (packet : List Nat) (fragment_size : Nat) : List (List Nat) :=
  fragmentF packet.length packet fragment_size

/-- Embedding of assemble_fragments (fragmentation.rs lines 30-49): error when
the total size of all fragments is zero, otherwise concatenate them. -/
def assemble_fragments (fragments : List (List Nat)) : Except String (List Nat) :=
  if (fragments.map List.length).sum = 0 then .error "No fragments to assemble"
  else .ok fragments.flatten

/-! ## Session waiter map (rust-udcn-quic/src/face.rs)

Face.pending_interests is a HashMap from the Interest's textual name to the
oneshot sender of the waiting express_interest call, guarded by a Mutex, so
its evolution is a sequence of atomic operations. Two operations matter here:

- express_interest (face.rs line 120) inserts its sender under the name key;
  HashMap::insert replaces any previous binding, and the replaced sender is
  dropped, which completes that earlier caller's receiver with RecvError -
  surfaced by express_interest as the channel-closed error (face.rs lines
  159-162).
- process_stream, on a Data whose textual name matches (face.rs lines
  401-408), removes the single binding at that key and fulfils it once.

Waiters are identified by numbers; the state records the map contents and the
outcome delivered to each completed waiter. -/

/-- Outcome delivered to a waiter. -/
inductive WaiterOutcome where
  | fulfilled
  | channelClosed
deriving Repr, DecidableEq

/-- An atomic session event touching the pending-interest map. -/
inductive SessionEvent where
  | express (name : List Nat) (wid : Nat)
  | dataArrives (name : List Nat)
deriving Repr, DecidableEq

/-- State of the pending-interest map plus the outcomes delivered so far. -/
structure SessionState where
  pending : List (List Nat × Nat)
  resolved : List (Nat × WaiterOutcome)
deriving Repr, DecidableEq

/-- HashMap::get on the pending map. -/
def pendingLookup (m : List (List Nat × Nat)) (name : List Nat) : Option Nat :=
  (List.find? (fun p => p.1 = name) m).map Prod.snd

/-- HashMap::insert on the pending map: replace any binding at the key. -/
def pendingInsert (m : List (List Nat × Nat)) (name : List Nat) (wid : Nat) :
    List (List Nat × Nat) :=
  (name, wid) :: m.filter (fun p => p.1 ≠ name)

/-- HashMap::remove on the pending map. -/
def pendingRemove (m : List (List Nat × Nat)) (name : List Nat) :
    List (List Nat × Nat) :=
  m.filter (fun p => p.1 ≠ name)

/-- One atomic step of the waiter map. express: insert, dropping (hence
channel-closing) any replaced waiter. dataArrives: remove the binding at the
name, fulfilling it exactly once; no binding means the Data fulfils nobody. -/
def sessionStep (s : SessionState) : SessionEvent → SessionState
  | .express name wid =>
    match pendingLookup s.pending name with
    | some old =>
      { pending := pendingInsert s.pending name wid,
        resolved := s.resolved ++ [(old, .channelClosed)] }
    | none =>
      { pending := pendingInsert s.pending name wid, resolved := s.resolved }
  | .dataArrives name =>
    match pendingLookup s.pending name with
    | some wid =>
      { pending := pendingRemove s.pending name,
        resolved := s.resolved ++ [(wid, .fulfilled)] }
    | none => s

/-- Run a sequence of session events from the empty map. -/
def runSession (events : List SessionEvent) : SessionState :=
  events.foldl sessionStep ⟨[], []⟩

/-- Outcomes produced by a chain of express calls for one name (current waiter
cur, then the further callers in order) terminated by one matching Data: every
replaced waiter is channel-closed, the last one is fulfilled. -/
def chainResults (cur : Nat) : List Nat → List (Nat × WaiterOutcome)
  | [] => [(cur, .fulfilled)]
  | w :: rest => (cur, .channelClosed) :: chainResults w rest

/-! ## Lemmas and claim theorems -/
theorem encode_tlv_length_ne_nil (n : Nat) : encode_tlv_length n ≠ [] := by
  unfold encode_tlv_length
  split
  · simp
  · split <;> simp

theorem decode_tlv_length_of_encode (n : Nat) (hn : n < 4294967296) (rest : List Nat) :
    decode_tlv_length (encode_tlv_length n ++ rest) = .ok (n, rest) := by
  unfold encode_tlv_length decode_tlv_length
  by_cases h1 : n < 253
  · simp only [if_pos h1, List.cons_append, List.nil_append]
    have : n ≤ 252 := by omega
    simp [this]
  · by_cases h2 : n ≤ 65535
    · simp only [if_neg h1, if_pos h2, List.cons_append, List.nil_append]
      have h253 : ¬ (253 ≤ 252) := by omega
      simp only [if_neg h253]
      have : n / 256 % 256 * 256 + n % 256 = n := by omega
      simp [this]
    · simp only [if_neg h1, if_neg h2, List.cons_append, List.nil_append]
      have h254a : ¬ (254 ≤ 252) := by omega
      have h254b : ¬ (254 = 253) := by omega
      simp only [if_neg h254a, if_neg h254b, if_pos rfl]
      have : ((n / 16777216 % 256 * 256 + n / 65536 % 256) * 256 + n / 256 % 256) * 256
          + n % 256 = n := by omega
      simp [this]

theorem decode_tlv_length_shrinks :
    ∀ (buf : List Nat) (len : Nat) (rest : List Nat),
      decode_tlv_length buf = .ok (len, rest) → rest.length < buf.length := by
  intro buf len rest h
  match buf with
  | [] => simp [decode_tlv_length] at h
  | b :: tl =>
    unfold decode_tlv_length at h
    by_cases hb : b ≤ 252
    · simp only [if_pos hb, Except.ok.injEq, Prod.mk.injEq] at h
      simp [← h.2]
    · by_cases hb2 : b = 253
      · simp only [if_neg hb, if_pos hb2] at h
        match tl with
        | [] => simp at h
        | [x] => simp at h
        | x :: y :: tl2 =>
          simp only [Except.ok.injEq, Prod.mk.injEq] at h
          simp [← h.2]
          omega
      · by_cases hb3 : b = 254
        · simp only [if_neg hb, if_neg hb2, if_pos hb3] at h
          match tl with
          | [] => simp at h
          | [x] => simp at h
          | [x, y] => simp at h
          | [x, y, z] => simp at h
          | x :: y :: z :: w :: tl2 =>
            simp only [Except.ok.injEq, Prod.mk.injEq] at h
            simp [← h.2]
            omega
        · simp [if_neg hb, if_neg hb2, if_neg hb3] at h

theorem TlvElement.decode_of_encode (e : TlvElement) (rest : List Nat) (hwf : e.wf) :
    TlvElement.decode (e.encode ++ rest) = .ok (e, rest) := by
  unfold TlvElement.decode TlvElement.encode
  have hne := encode_tlv_length_ne_nil e.value.length
  have hpos : 0 < (encode_tlv_length e.value.length).length := List.length_pos.mpr hne
  have hlen2 : ¬ ((e.tlv_type :: (encode_tlv_length e.value.length ++ (e.value ++ rest))).length < 2) := by
    simp only [List.length_cons, List.length_append]
    omega
  simp only [List.cons_append, List.append_assoc]
  rw [if_neg hlen2]
  simp only [decode_tlv_type]
  rw [decode_tlv_length_of_encode e.value.length hwf (e.value ++ rest)]
  have hge : ¬ ((e.value ++ rest).length < e.value.length) := by simp
  simp only [hge, if_neg, if_false]
  simp [List.take_left, List.drop_left]

theorem TlvElement.decode_shrinks (buf : List Nat) (e : TlvElement) (rest : List Nat)
    (h : TlvElement.decode buf = .ok (e, rest)) : rest.length < buf.length := by
  unfold TlvElement.decode at h
  by_cases h2 : buf.length < 2
  · simp [h2] at h
  · simp only [if_neg h2] at h
    match buf, h2 with
    | b :: tl, _ =>
      simp only [decode_tlv_type] at h
      match hlen : decode_tlv_length tl with
      | .error m => simp [hlen] at h
      | .ok (len, r2) =>
        simp only [hlen] at h
        by_cases h3 : r2.length < len
        · simp [h3] at h
        · simp only [if_neg h3, Except.ok.injEq, Prod.mk.injEq] at h
          have hr2 : r2.length < tl.length + 1 := by
            have := decode_tlv_length_shrinks tl len r2 hlen
            omega
          have : rest.length ≤ r2.length := by
            rw [← h.2]; simp
          simp only [List.length_cons]
          omega

theorem tlvFoldF_fuel_irrelevant {σ : Type} (step : σ → TlvElement → Except String σ) :
    ∀ (f1 f2 : Nat) (s : σ) (buf : List Nat),
      buf.length ≤ f1 → buf.length ≤ f2 →
      tlvFoldF step f1 s buf = tlvFoldF step f2 s buf := by
  intro f1
  induction f1 with
  | zero =>
    intro f2 s buf h1 _
    match buf with
    | [] => cases f2 <;> rfl
    | _ :: _ => simp at h1
  | succ n ih =>
    intro f2 s buf h1 h2
    match buf with
    | [] => cases f2 <;> rfl
    | b :: bs =>
      match f2 with
      | 0 => simp at h2
      | m + 1 =>
        simp only [tlvFoldF]
        cases hdec : TlvElement.decode (b :: bs) with
        | error msg => simp [hdec]
        | ok pr =>
          obtain ⟨e, rest⟩ := pr
          simp only [hdec]
          cases hstep : step s e with
          | error msg => simp [hstep]
          | ok s2 =>
            simp only [hstep]
            have hlt := TlvElement.decode_shrinks (b :: bs) e rest hdec
            simp only [List.length_cons] at hlt h1 h2
            exact ih m s2 rest (by omega) (by omega)

theorem tlvFold_nil {σ : Type} (step : σ → TlvElement → Except String σ) (s : σ) :
    tlvFold step s [] = .ok s := rfl

/-- The loop satisfies the recurrence of the source while-loop on any buffer
that starts with a well-formed encoded element. -/
theorem tlvFold_encode_append {σ : Type} (step : σ → TlvElement → Except String σ)
    (s : σ) (e : TlvElement) (rest : List Nat) (hwf : e.wf) :
    tlvFold step s (e.encode ++ rest) =
      match step s e with
      | .error m => .error m
      | .ok s2 => tlvFold step s2 rest := by
  have hcons : ∃ b bs, e.encode ++ rest = b :: bs := by
    unfold TlvElement.encode
    exact ⟨e.tlv_type, _, rfl⟩
  obtain ⟨b, bs, hbs⟩ := hcons
  have hdec : TlvElement.decode (b :: bs) = .ok (e, rest) := by
    rw [← hbs]
    exact TlvElement.decode_of_encode e rest hwf
  have hshr : rest.length < bs.length + 1 := by
    have := TlvElement.decode_shrinks (b :: bs) e rest hdec
    simpa using this
  unfold tlvFold
  rw [hbs]
  simp only [List.length_cons, tlvFoldF, hdec]
  cases hstep : step s e with
  | error msg => simp
  | ok s2 =>
    simp only
    exact tlvFoldF_fuel_irrelevant step bs.length rest.length s2 rest (by omega) (le_refl _)

theorem tlvFold_encodeElems {σ : Type} (step : σ → TlvElement → Except String σ)
    (es : List TlvElement) (s : σ) (hwf : ∀ e ∈ es, e.wf) :
    tlvFold step s (encodeElems es) = stepList step s es := by
  induction es generalizing s with
  | nil => rfl
  | cons e es ih =>
    have he : e.wf := hwf e (by simp)
    have hes : ∀ x ∈ es, x.wf := fun x hx => hwf x (by simp [hx])
    show tlvFold step s (e.encode ++ encodeElems es) = stepList step s (e :: es)
    rw [tlvFold_encode_append step s e (encodeElems es) he]
    unfold stepList
    cases hstep : step s e with
    | error m => simp
    | ok s2 =>
      simp only
      exact ih s2 hes

theorem componentToTlv_wf (c : List Nat) (h : c.length ≤ 255) : (componentToTlv c).wf := by
  simp only [componentToTlv, TlvElement.wf]
  omega

theorem componentToTlv_encode_length (c : List Nat) (h : c.length ≤ 255) :
    (componentToTlv c).encode.length ≤ 259 := by
  simp only [componentToTlv, TlvElement.encode, List.length_cons, List.length_append]
  unfold encode_tlv_length
  by_cases h1 : c.length < 253
  · rw [if_pos h1]
    simp only [List.length_cons, List.length_nil]
    omega
  · rw [if_neg h1, if_pos (by omega : c.length ≤ 65535)]
    simp only [List.length_cons, List.length_nil]
    omega

theorem name_tlv_value_length (n : Name) (hwf : n.wf) :
    (Name.to_tlv n).value.length ≤ 16 * 259 := by
  obtain ⟨hcount, hcomp⟩ := hwf
  simp only [Name.to_tlv, encodeElems, List.length_flatten, List.map_map]
  have hbound : ∀ x ∈ n.components.map (List.length ∘ TlvElement.encode ∘ componentToTlv),
      x ≤ 259 := by
    intro x hx
    simp only [List.mem_map, Function.comp_apply] at hx
    obtain ⟨c, hc, hcx⟩ := hx
    rw [← hcx]
    exact componentToTlv_encode_length c (hcomp c hc)
  have h1 := List.sum_le_card_nsmul
    (n.components.map (List.length ∘ TlvElement.encode ∘ componentToTlv)) 259 hbound
  simp only [smul_eq_mul, List.length_map] at h1
  omega

theorem name_to_tlv_wf (n : Name) (hwf : n.wf) : (Name.to_tlv n).wf := by
  have := name_tlv_value_length n hwf
  simp only [TlvElement.wf]
  omega

theorem componentStep_encodeElems (comps : List (List Nat)) :
    ∀ acc, (∀ c ∈ comps, c.length ≤ 255) →
      tlvFold componentStep acc (encodeElems (comps.map componentToTlv)) = .ok (acc ++ comps) := by
  induction comps with
  | nil =>
    intro acc _
    show tlvFold componentStep acc [] = .ok (acc ++ [])
    rw [tlvFold_nil]
    simp
  | cons c cs ih =>
    intro acc hlen
    have hc : c.length ≤ 255 := hlen c (by simp)
    have hcs : ∀ x ∈ cs, x.length ≤ 255 := fun x hx => hlen x (by simp [hx])
    show tlvFold componentStep acc ((componentToTlv c).encode ++ encodeElems (cs.map componentToTlv)) = _
    rw [tlvFold_encode_append componentStep acc (componentToTlv c) _ (componentToTlv_wf c hc)]
    have hstep : componentStep acc (componentToTlv c) = .ok (acc ++ [c]) := by
      simp [componentStep, componentFromTlv, componentToTlv, TLV_COMPONENT]
    rw [hstep]
    simp only
    rw [ih (acc ++ [c]) hcs]
    simp

theorem Name.from_to_tlv (n : Name) (hwf : n.wf) : Name.from_tlv n.to_tlv = .ok n := by
  unfold Name.from_tlv
  simp only [Name.to_tlv, TLV_NAME, ne_eq, not_true_eq_false, if_neg, reduceIte]
  rw [componentStep_encodeElems n.components [] hwf.2]
  simp

theorem encode_tlv_length_length_le (n : Nat) : (encode_tlv_length n).length ≤ 5 := by
  unfold encode_tlv_length
  split
  · simp
  · split <;> simp

theorem TlvElement.encode_length_le (e : TlvElement) :
    e.encode.length ≤ e.value.length + 6 := by
  simp only [TlvElement.encode, List.length_cons, List.length_append]
  have := encode_tlv_length_length_le e.value.length
  omega

theorem TlvElement.decode_of_encode_nil (e : TlvElement) (hwf : e.wf) :
    TlvElement.decode e.encode = .ok (e, []) := by
  have := TlvElement.decode_of_encode e [] hwf
  simpa using this

theorem boolByte_bne (b : Bool) : (boolByte b != 0) = b := by
  cases b <;> rfl

theorem natToBe4_length (x : Nat) : (natToBe4 x).length = 4 := rfl

theorem natToBe4_value (x : Nat) (hx : x < 4294967296) :
    ((x / 16777216 % 256 * 256 + x / 65536 % 256) * 256 + x / 256 % 256) * 256 + x % 256 = x := by
  omega

theorem bytesToBe_natToBe4 (x : Nat) (hx : x < 4294967296) :
    bytesToBe (natToBe4 x) = x := by
  simp only [bytesToBe, natToBe4, List.foldl_cons, List.foldl_nil]
  omega

theorem encodeElems_length (es : List TlvElement) :
    (encodeElems es).length = (es.map fun e => e.encode.length).sum := by
  induction es with
  | nil => rfl
  | cons e es ih =>
    show (e.encode ++ encodeElems es).length = _
    simp only [List.length_append, List.map_cons, List.sum_cons, ih]

/-- Decoding an Interest packet built from an inner element list runs the
decode loop over exactly those elements, then applies the defaults. -/
theorem interest_decode_packet (es : List TlvElement) (hwf : ∀ e ∈ es, e.wf)
    (hlen : (encodeElems es).length < 4294967296) :
    Interest.decode (TlvElement.encode ⟨TLV_INTEREST, encodeElems es⟩) =
      match stepList interestStep interestInit es with
      | .error m => .error m
      | .ok acc =>
        match acc.name with
        | none => .error "Interest missing name"
        | some n => .ok ⟨n, acc.nonce.getD 0, acc.lifetime_ms.getD 4000, acc.hop_limit,
                         acc.canBePrefix, acc.mustBeFresh⟩ := by
  unfold Interest.decode
  rw [TlvElement.decode_of_encode_nil ⟨TLV_INTEREST, encodeElems es⟩ hlen]
  simp only [ne_eq, not_true_eq_false, if_neg, reduceIte]
  rw [tlvFold_encodeElems interestStep es interestInit hwf]

/-- Decoding a Data packet built from an inner element list runs the decode
loop over exactly those elements. -/
theorem data_decode_packet (es : List TlvElement) (hwf : ∀ e ∈ es, e.wf)
    (hlen : (encodeElems es).length < 4294967296) :
    Data.decode (TlvElement.encode ⟨TLV_DATA, encodeElems es⟩) =
      match stepList dataStep ⟨none, []⟩ es with
      | .error m => .error m
      | .ok acc =>
        match acc.name with
        | none => .error "Data missing name"
        | some n => .ok ⟨n, acc.content, 10000⟩ := by
  unfold Data.decode
  rw [TlvElement.decode_of_encode_nil ⟨TLV_DATA, encodeElems es⟩ hlen]
  simp only [ne_eq, not_true_eq_false, if_neg, reduceIte]
  rw [tlvFold_encodeElems dataStep es ⟨none, []⟩ hwf]

theorem interest_elems_wf (i : Interest) (hw : i.wfP) :
    ∀ e ∈ ([i.name.to_tlv,
            ⟨TLV_SELECTORS, [boolByte i.canBePrefix, boolByte i.mustBeFresh]⟩,
            ⟨TLV_NONCE, natToBe4 i.nonce⟩,
            ⟨TLV_INTEREST_LIFETIME, natToBe4 i.lifetime_ms⟩]
      ++ match i.hop_limit with
         | some h => [(⟨TLV_HOP_LIMIT, [h]⟩ : TlvElement)]
         | none => []), e.wf := by
  intro e he
  simp only [List.mem_append, List.mem_cons, List.not_mem_nil, or_false] at he
  rcases he with he | he
  · rcases he with h1 | h1 | h1 | h1
    · rw [h1]; exact name_to_tlv_wf i.name hw.1
    · rw [h1]; simp [TlvElement.wf]
    · rw [h1]; simp [TlvElement.wf, natToBe4]
    · rw [h1]; simp [TlvElement.wf, natToBe4]
  · cases hh : i.hop_limit with
    | none => rw [hh] at he; simp at he
    | some h =>
      rw [hh] at he
      simp only [List.mem_cons, List.not_mem_nil, or_false] at he
      rw [he]
      simp [TlvElement.wf]

theorem interest_elems_len (i : Interest) (hw : i.wfP) :
    (encodeElems ([i.name.to_tlv,
            ⟨TLV_SELECTORS, [boolByte i.canBePrefix, boolByte i.mustBeFresh]⟩,
            ⟨TLV_NONCE, natToBe4 i.nonce⟩,
            ⟨TLV_INTEREST_LIFETIME, natToBe4 i.lifetime_ms⟩]
      ++ match i.hop_limit with
         | some h => [(⟨TLV_HOP_LIMIT, [h]⟩ : TlvElement)]
         | none => [])).length < 4294967296 := by
  have hname := name_tlv_value_length i.name hw.1
  have h1 := TlvElement.encode_length_le i.name.to_tlv
  have h2 := TlvElement.encode_length_le
    ⟨TLV_SELECTORS, [boolByte i.canBePrefix, boolByte i.mustBeFresh]⟩
  have h3 := TlvElement.encode_length_le ⟨TLV_NONCE, natToBe4 i.nonce⟩
  have h4 := TlvElement.encode_length_le ⟨TLV_INTEREST_LIFETIME, natToBe4 i.lifetime_ms⟩
  simp only [natToBe4_length, List.length_cons, List.length_nil] at h2 h3 h4
  cases hh : i.hop_limit with
  | none =>
    rw [encodeElems_length]
    simp only [List.append_nil, List.map_cons, List.map_nil, List.sum_cons, List.sum_nil]
    omega
  | some h =>
    have h5 := TlvElement.encode_length_le ⟨TLV_HOP_LIMIT, [h]⟩
    simp only [List.length_cons, List.length_nil] at h5
    rw [encodeElems_length]
    simp only [List.cons_append, List.nil_append, List.map_cons, List.map_nil,
      List.sum_cons, List.sum_nil]
    omega

/-- Full Interest codec roundtrip: decoding an encoded well-formed Interest
restores every field. -/
theorem interest_decode_encode (i : Interest) (hw : i.wfP) :
    Interest.decode (Interest.encode i) = .ok i := by
  obtain ⟨hname, hnonce, hlife, hhop⟩ := hw
  have hstep1 : interestStep interestInit i.name.to_tlv =
      .ok ⟨some i.name, none, none, none, false, false⟩ := by
    have hft : Name.from_tlv ⟨7, encodeElems (List.map componentToTlv i.name.components)⟩
        = .ok i.name := Name.from_to_tlv i.name hname
    simp [interestStep, Name.to_tlv, TLV_NAME, hft, interestInit]
  have hstep2 : ∀ acc : InterestAcc,
      interestStep acc ⟨TLV_SELECTORS, [boolByte i.canBePrefix, boolByte i.mustBeFresh]⟩ =
      .ok { acc with canBePrefix := i.canBePrefix, mustBeFresh := i.mustBeFresh } := by
    intro acc
    simp [interestStep, TLV_SELECTORS, TLV_NAME, TLV_NONCE, TLV_INTEREST_LIFETIME, boolByte_bne]
  have hstep3 : ∀ acc : InterestAcc,
      interestStep acc ⟨TLV_NONCE, natToBe4 i.nonce⟩ =
      .ok { acc with nonce := some i.nonce } := by
    intro acc
    simp only [interestStep, TLV_NONCE, TLV_NAME, natToBe4]
    norm_num
    rw [natToBe4_value i.nonce hnonce]
  have hstep4 : ∀ acc : InterestAcc,
      interestStep acc ⟨TLV_INTEREST_LIFETIME, natToBe4 i.lifetime_ms⟩ =
      .ok { acc with lifetime_ms := some i.lifetime_ms } := by
    intro acc
    simp only [interestStep, TLV_INTEREST_LIFETIME, TLV_NAME, TLV_NONCE]
    norm_num [natToBe4_length, bytesToBe_natToBe4 i.lifetime_ms hlife]
  unfold Interest.encode
  rw [interest_decode_packet _ (interest_elems_wf i ⟨hname, hnonce, hlife, hhop⟩)
      (interest_elems_len i ⟨hname, hnonce, hlife, hhop⟩)]
  cases hh : i.hop_limit with
  | none =>
    simp only [hh, List.append_nil]
    simp only [stepList, hstep1, hstep2, hstep3, hstep4]
    simp only [Option.getD_some]
    rw [show (⟨i.name, i.nonce, i.lifetime_ms, none, i.canBePrefix, i.mustBeFresh⟩ : Interest)
        = i by rw [← hh]]
  | some h =>
    have hstep5 : ∀ acc : InterestAcc,
        interestStep acc ⟨TLV_HOP_LIMIT, [h]⟩ = .ok { acc with hop_limit := some h } := by
      intro acc
      simp [interestStep, TLV_HOP_LIMIT, TLV_NAME, TLV_NONCE, TLV_INTEREST_LIFETIME,
        TLV_SELECTORS]
    simp only [hh, List.cons_append, List.nil_append]
    simp only [stepList, hstep1, hstep2, hstep3, hstep4, hstep5]
    simp only [Option.getD_some]
    rw [show (⟨i.name, i.nonce, i.lifetime_ms, some h, i.canBePrefix, i.mustBeFresh⟩ : Interest)
        = i by rw [← hh]]

/-- Full Data codec roundtrip: name and content are restored, while ttl_ms
always decodes to the constant 10000. -/
theorem data_decode_encode (d : Data) (hw : d.wfP) :
    Data.decode (Data.encode d) = .ok ⟨d.name, d.content, 10000⟩ := by
  obtain ⟨hname, hcontent⟩ := hw
  have hwf : ∀ e ∈ [d.name.to_tlv, (⟨TLV_CONTENT, d.content⟩ : TlvElement)], e.wf := by
    intro e he
    simp only [List.mem_cons, List.not_mem_nil, or_false] at he
    rcases he with h1 | h1
    · rw [h1]; exact name_to_tlv_wf d.name hname
    · rw [h1]; simp only [TlvElement.wf]; omega
  have hlen : (encodeElems [d.name.to_tlv, (⟨TLV_CONTENT, d.content⟩ : TlvElement)]).length
      < 4294967296 := by
    have hnm := name_tlv_value_length d.name hname
    have h1 := TlvElement.encode_length_le d.name.to_tlv
    have h2 : (⟨TLV_CONTENT, d.content⟩ : TlvElement).encode.length ≤ d.content.length + 6 :=
      TlvElement.encode_length_le _
    rw [encodeElems_length]
    simp only [List.map_cons, List.map_nil, List.sum_cons, List.sum_nil]
    omega
  have hstep1 : dataStep ⟨none, []⟩ d.name.to_tlv = .ok ⟨some d.name, []⟩ := by
    have hft : Name.from_tlv ⟨7, encodeElems (List.map componentToTlv d.name.components)⟩
        = .ok d.name := Name.from_to_tlv d.name hname
    simp [dataStep, Name.to_tlv, TLV_NAME, hft]
  have hstep2 : ∀ acc : DataAcc, dataStep acc ⟨TLV_CONTENT, d.content⟩ =
      .ok { acc with content := d.content } := by
    intro acc
    simp [dataStep, TLV_CONTENT, TLV_NAME]
  unfold Data.encode
  rw [data_decode_packet _ hwf hlen]
  simp only [stepList, hstep1, hstep2]

theorem interestStep_not_name_ok (acc : InterestAcc) (e : TlvElement)
    (h7 : e.tlv_type ≠ TLV_NAME) : ∃ acc2, interestStep acc e = .ok acc2 := by
  unfold interestStep
  rw [if_neg h7]
  split
  · exact ⟨_, rfl⟩
  · split
    · exact ⟨_, rfl⟩
    · split
      · exact ⟨_, rfl⟩
      · split
        · exact ⟨_, rfl⟩
        · exact ⟨_, rfl⟩

theorem interestStep_name_case (acc acc2 : InterestAcc) (e : TlvElement)
    (h7 : e.tlv_type = TLV_NAME) (h : interestStep acc e = .ok acc2) :
    ∃ n, Name.from_tlv e = .ok n ∧ acc2 = { acc with name := some n } := by
  unfold interestStep at h
  rw [if_pos h7] at h
  cases hft : Name.from_tlv e with
  | error m => rw [hft] at h; exact absurd h (by simp)
  | ok n =>
    rw [hft] at h
    simp only [Except.ok.injEq] at h
    exact ⟨n, rfl, h.symm⟩

/-- Field-level effect of one Interest decode-loop step: every field not
addressed by the element (or addressed with a value the source ignores) is
left unchanged, and a name already seen is never lost. -/
theorem interestStep_cases (acc acc2 : InterestAcc) (e : TlvElement)
    (h : interestStep acc e = .ok acc2) :
    (e.tlv_type ≠ TLV_NAME → acc2.name = acc.name) ∧
    ((e.tlv_type = TLV_NONCE → e.value.length ≠ 4) → acc2.nonce = acc.nonce) ∧
    (e.tlv_type ≠ TLV_INTEREST_LIFETIME → acc2.lifetime_ms = acc.lifetime_ms) ∧
    ((e.tlv_type = TLV_SELECTORS → e.value.length < 2) →
       acc2.canBePrefix = acc.canBePrefix ∧ acc2.mustBeFresh = acc.mustBeFresh) ∧
    (acc.name.isSome → acc2.name.isSome) := by
  by_cases h7 : e.tlv_type = TLV_NAME
  · obtain ⟨n, hft, hacc⟩ := interestStep_name_case acc acc2 e h7 h
    subst hacc
    refine ⟨fun hne => absurd h7 hne, fun _ => rfl, fun _ => rfl, fun _ => ⟨rfl, rfl⟩, fun _ => rfl⟩
  · unfold interestStep at h
    rw [if_neg h7] at h
    by_cases h10 : e.tlv_type = TLV_NONCE
    · rw [if_pos h10] at h
      simp only [Except.ok.injEq] at h
      split at h
      · rename_i b0 b1 b2 b3 hv
        subst h
        have hne4 : e.value.length = 4 := by rw [hv]; rfl
        refine ⟨fun _ => rfl, fun hn => absurd hne4 (hn h10), fun _ => rfl,
                fun _ => ⟨rfl, rfl⟩, fun hs => hs⟩
      · subst h
        exact ⟨fun _ => rfl, fun _ => rfl, fun _ => rfl, fun _ => ⟨rfl, rfl⟩, fun hs => hs⟩
    · rw [if_neg h10] at h
      by_cases h12 : e.tlv_type = TLV_INTEREST_LIFETIME
      · rw [if_pos h12] at h
        simp only [Except.ok.injEq] at h
        split at h
        · subst h
          refine ⟨fun _ => rfl, fun _ => rfl, fun hn => absurd h12 hn, fun _ => ⟨rfl, rfl⟩,
                  fun hs => hs⟩
        · subst h
          exact ⟨fun _ => rfl, fun _ => rfl, fun _ => rfl, fun _ => ⟨rfl, rfl⟩, fun hs => hs⟩
      · rw [if_neg h12] at h
        by_cases h9 : e.tlv_type = TLV_SELECTORS
        · rw [if_pos h9] at h
          simp only [Except.ok.injEq] at h
          split at h
          · rename_i b0 b1 tl hv
            subst h
            have hlen2 : 2 ≤ e.value.length := by rw [hv]; simp
            refine ⟨fun _ => rfl, fun _ => rfl, fun _ => rfl,
                    fun hn => absurd (hn h9) (by omega), fun hs => hs⟩
          · subst h
            exact ⟨fun _ => rfl, fun _ => rfl, fun _ => rfl, fun _ => ⟨rfl, rfl⟩, fun hs => hs⟩
        · rw [if_neg h9] at h
          by_cases h34 : e.tlv_type = TLV_HOP_LIMIT
          · rw [if_pos h34] at h
            simp only [Except.ok.injEq] at h
            split at h <;> subst h <;>
              exact ⟨fun _ => rfl, fun _ => rfl, fun _ => rfl, fun _ => ⟨rfl, rfl⟩, fun hs => hs⟩
          · rw [if_neg h34] at h
            simp only [Except.ok.injEq] at h
            subst h
            exact ⟨fun _ => rfl, fun _ => rfl, fun _ => rfl, fun _ => ⟨rfl, rfl⟩, fun hs => hs⟩

/-- An element of a type the Interest decode loop does not recognise is
skipped: no error, no state change (the catch-all arm at ndn.rs line 331). -/
theorem interestStep_skips_unknown (acc : InterestAcc) (e : TlvElement)
    (h7 : e.tlv_type ≠ TLV_NAME) (h10 : e.tlv_type ≠ TLV_NONCE)
    (h12 : e.tlv_type ≠ TLV_INTEREST_LIFETIME) (h9 : e.tlv_type ≠ TLV_SELECTORS)
    (h34 : e.tlv_type ≠ TLV_HOP_LIMIT) :
    interestStep acc e = .ok acc := by
  unfold interestStep
  rw [if_neg h7, if_neg h10, if_neg h12, if_neg h9, if_neg h34]

theorem stepList_interest_fields (es : List TlvElement) :
    ∀ (acc r : InterestAcc), stepList interestStep acc es = .ok r →
    ((∀ e ∈ es, e.tlv_type ≠ TLV_NAME) → r.name = acc.name) ∧
    ((∀ e ∈ es, e.tlv_type = TLV_NONCE → e.value.length ≠ 4) → r.nonce = acc.nonce) ∧
    ((∀ e ∈ es, e.tlv_type ≠ TLV_INTEREST_LIFETIME) → r.lifetime_ms = acc.lifetime_ms) ∧
    ((∀ e ∈ es, e.tlv_type = TLV_SELECTORS → e.value.length < 2) →
       r.canBePrefix = acc.canBePrefix ∧ r.mustBeFresh = acc.mustBeFresh) ∧
    (acc.name.isSome → r.name.isSome) := by
  induction es with
  | nil =>
    intro acc r h
    simp only [stepList, Except.ok.injEq] at h
    subst h
    exact ⟨fun _ => rfl, fun _ => rfl, fun _ => rfl, fun _ => ⟨rfl, rfl⟩, fun hs => hs⟩
  | cons e es ih =>
    intro acc r h
    unfold stepList at h
    cases hs : interestStep acc e with
    | error m => rw [hs] at h; exact absurd h (by simp)
    | ok acc2 =>
      rw [hs] at h
      simp only at h
      have hone := interestStep_cases acc acc2 e hs
      have hrest := ih acc2 r h
      refine ⟨?_, ?_, ?_, ?_, ?_⟩
      · intro hall
        rw [hrest.1 (fun x hx => hall x (by simp [hx])), hone.1 (hall e (by simp))]
      · intro hall
        rw [hrest.2.1 (fun x hx => hall x (by simp [hx])), hone.2.1 (hall e (by simp))]
      · intro hall
        rw [hrest.2.2.1 (fun x hx => hall x (by simp [hx])), hone.2.2.1 (hall e (by simp))]
      · intro hall
        have ha := hone.2.2.2.1 (hall e (by simp))
        have hb := hrest.2.2.2.1 (fun x hx => hall x (by simp [hx]))
        exact ⟨by rw [hb.1, ha.1], by rw [hb.2, ha.2]⟩
      · intro hsome
        exact hrest.2.2.2.2 (hone.2.2.2.2 hsome)

theorem stepList_interest_ok (es : List TlvElement) :
    ∀ acc : InterestAcc, (∀ e ∈ es, e.tlv_type = TLV_NAME → (Name.from_tlv e).isOk) →
    ∃ r, stepList interestStep acc es = .ok r ∧
      ((acc.name.isSome ∨ ∃ e ∈ es, e.tlv_type = TLV_NAME) → r.name.isSome) := by
  induction es with
  | nil =>
    intro acc _
    refine ⟨acc, rfl, ?_⟩
    rintro (hs | ⟨e, he, _⟩)
    · exact hs
    · simp at he
  | cons e es ih =>
    intro acc hparse
    by_cases h7 : e.tlv_type = TLV_NAME
    · have hok := hparse e (by simp) h7
      cases hft : Name.from_tlv e with
      | error m => rw [hft] at hok; simp [Except.isOk, Except.toBool] at hok
      | ok n =>
        have hstep : interestStep acc e = .ok { acc with name := some n } := by
          unfold interestStep
          rw [if_pos h7, hft]
        obtain ⟨r, hr, hrsome⟩ := ih { acc with name := some n }
          (fun x hx hx7 => hparse x (by simp [hx]) hx7)
        refine ⟨r, ?_, fun _ => hrsome (Or.inl (by simp))⟩
        unfold stepList
        rw [hstep]
        exact hr
    · obtain ⟨acc2, hstep⟩ := interestStep_not_name_ok acc e h7
      obtain ⟨r, hr, hrsome⟩ := ih acc2 (fun x hx hx7 => hparse x (by simp [hx]) hx7)
      refine ⟨r, ?_, ?_⟩
      · unfold stepList
        rw [hstep]
        exact hr
      · rintro (hs | ⟨x, hx, hx7⟩)
        · exact hrsome (Or.inl ((interestStep_cases acc acc2 e hstep).2.2.2.2 hs))
        · simp only [List.mem_cons] at hx
          rcases hx with hx | hx
          · exact absurd (hx ▸ hx7) h7
          · exact hrsome (Or.inr ⟨x, hx, hx7⟩)

/-- Every successfully decoded Data carries ttl_ms = 10000, the constant the
decoder writes (ndn.rs line 463). -/
theorem Data.decode_ttl (bytes : List Nat) (p : Data) (h : Data.decode bytes = .ok p) :
    p.ttl_ms = 10000 := by
  unfold Data.decode at h
  cases hd : TlvElement.decode bytes with
  | error m => rw [hd] at h; exact absurd h (by simp)
  | ok pr =>
    obtain ⟨outer, rest⟩ := pr
    rw [hd] at h
    simp only at h
    by_cases ht : outer.tlv_type ≠ TLV_DATA
    · rw [if_pos ht] at h; exact absurd h (by simp)
    · rw [if_neg ht] at h
      cases hf : tlvFold dataStep ⟨none, []⟩ outer.value with
      | error m => rw [hf] at h; exact absurd h (by simp)
      | ok acc =>
        rw [hf] at h
        simp only at h
        cases hn : acc.name with
        | none => rw [hn] at h; exact absurd h (by simp)
        | some n =>
          rw [hn] at h
          simp only [Except.ok.injEq] at h
          rw [← h]

theorem lpmFold_keeps (t : FibTable) (h : Nat) :
    ∀ (L : List Nat) (v : FibValue) (l0 : Nat), (∀ x ∈ L, x < l0) →
      L.foldl (lpmFoldStep t h) (some (v, l0)) = some (v, l0) := by
  intro L
  induction L with
  | nil => intro v l0 _; rfl
  | cons l L ih =>
    intro v l0 hall
    have hl : l < l0 := hall l (by simp)
    have hstep : lpmFoldStep t h (some (v, l0)) l = some (v, l0) := by
      unfold lpmFoldStep
      cases fibGet t ⟨h, l⟩ with
      | none => rfl
      | some value => simp only; rw [if_neg (by omega)]
    rw [List.foldl_cons, hstep]
    exact ih v l0 (fun x hx => hall x (by simp [hx]))

theorem lpmFold_descending (t : FibTable) (h : Nat) :
    ∀ (L : List Nat), L.Pairwise (· > ·) →
      (L.foldl (lpmFoldStep t h) none).map (fun p => p.1.face_id) =
        L.findSome? (fun l => (fibGet t ⟨h, l⟩).map FibValue.face_id) := by
  intro L
  induction L with
  | nil => intro _; rfl
  | cons l L ih =>
    intro hpw
    have hall : ∀ x ∈ L, l > x := (List.pairwise_cons.mp hpw).1
    have hpwL : L.Pairwise (· > ·) := (List.pairwise_cons.mp hpw).2
    rw [List.foldl_cons, List.findSome?_cons]
    cases hg : fibGet t ⟨h, l⟩ with
    | none =>
      have hstep : lpmFoldStep t h none l = none := by
        unfold lpmFoldStep
        rw [hg]
      rw [hstep, ih hpwL]
      simp
    | some value =>
      have hstep : lpmFoldStep t h none l = some (value, l) := by
        unfold lpmFoldStep
        rw [hg]
      rw [hstep, lpmFold_keeps t h L value l (fun x hx => hall x hx)]
      simp

/-- What the eBPF lookup actually computes: the first hit walking the single
supplied hash down from prefix_len 16 to 0. -/
theorem longest_prefix_match_eq_descending (t : FibTable) (h : Nat) :
    longest_prefix_match t h = descendingProbe t h := by
  unfold longest_prefix_match descendingProbe
  exact lpmFold_descending t h ((List.range 17).reverse) (by decide)

theorem fragmentF_flatten :
    ∀ (fuel : Nat) (p : List Nat) (s : Nat), p.length ≤ fuel → 1 ≤ s →
      (fragmentF fuel p s).flatten = p := by
  intro fuel
  induction fuel with
  | zero =>
    intro p s hp _
    match p with
    | [] => rfl
    | _ :: _ => simp at hp
  | succ n ih =>
    intro p s hp hs
    match p with
    | [] => rfl
    | hd :: tl =>
      simp only [fragmentF, if_neg (by omega : ¬ s = 0), List.flatten_cons]
      have hlen : ((hd :: tl).drop s).length ≤ n := by
        simp only [List.length_cons] at hp
        simp only [List.length_drop, List.length_cons]
        omega
      rw [ih ((hd :: tl).drop s) s hlen hs]
      exact List.take_append_drop s (hd :: tl)

theorem fragmentF_chunk_length :
    ∀ (fuel : Nat) (p : List Nat) (s : Nat) (f : List Nat),
      f ∈ fragmentF fuel p s → f.length ≤ s := by
  intro fuel
  induction fuel with
  | zero =>
    intro p s f hf
    match p with
    | [] => simp [fragmentF] at hf
    | _ :: _ => simp [fragmentF] at hf
  | succ n ih =>
    intro p s f hf
    match p with
    | [] => simp [fragmentF] at hf
    | hd :: tl =>
      by_cases hs : s = 0
      · simp [fragmentF, hs] at hf
      · simp only [fragmentF, if_neg hs, List.mem_cons] at hf
        rcases hf with hf | hf
        · rw [hf]
          simp [List.length_take]
        · exact ih _ s f hf

theorem session_chain (name : List Nat) :
    ∀ (wids : List Nat) (cur : Nat) (res : List (Nat × WaiterOutcome)),
      List.foldl sessionStep ⟨[(name, cur)], res⟩
          (wids.map (SessionEvent.express name) ++ [SessionEvent.dataArrives name]) =
        ⟨[], res ++ chainResults cur wids⟩ := by
  intro wids
  induction wids with
  | nil =>
    intro cur res
    simp only [List.map_nil, List.nil_append, List.foldl_cons, List.foldl_nil]
    have hstep : sessionStep ⟨[(name, cur)], res⟩ (SessionEvent.dataArrives name) =
        ⟨[], res ++ [(cur, .fulfilled)]⟩ := by
      simp [sessionStep, pendingLookup, pendingRemove]
    rw [hstep]
    rfl
  | cons w ws ih =>
    intro cur res
    simp only [List.map_cons, List.cons_append, List.foldl_cons]
    have hstep : sessionStep ⟨[(name, cur)], res⟩ (SessionEvent.express name w) =
        ⟨[(name, w)], res ++ [(cur, .channelClosed)]⟩ := by
      simp [sessionStep, pendingLookup, pendingInsert]
    rw [hstep, ih w (res ++ [(cur, WaiterOutcome.channelClosed)])]
    simp [chainResults]

theorem chainResults_fulfilled (wids : List Nat) :
    ∀ (cur x : Nat), ((x, WaiterOutcome.fulfilled) ∈ chainResults cur wids ↔
      x = wids.getLastD cur) := by
  induction wids with
  | nil =>
    intro cur x
    simp [chainResults]
  | cons w ws ih =>
    intro cur x
    simp only [chainResults, List.mem_cons, List.getLastD_cons]
    constructor
    · rintro (hx | hx)
      · simp at hx
      · exact (ih w x).mp hx
    · intro hx
      exact Or.inr ((ih w x).mpr hx)

theorem chainResults_closed (wids : List Nat) :
    ∀ (cur x : Nat), ((x, WaiterOutcome.channelClosed) ∈ chainResults cur wids ↔
      x ∈ (cur :: wids).dropLast) := by
  induction wids with
  | nil =>
    intro cur x
    simp [chainResults]
  | cons w ws ih =>
    intro cur x
    simp only [chainResults, List.mem_cons, List.dropLast_cons₂]
    constructor
    · rintro (hx | hx)
      · simp only [Prod.mk.injEq] at hx
        exact Or.inl hx.1
      · exact Or.inr ((ih w x).mp hx)
    · rintro (hx | hx)
      · exact Or.inl (by rw [hx])
      · exact Or.inr ((ih w x).mpr hx)

/-! ## Claim theorems -/

/-- C1 (counterexample): the codec does not preserve ttl_ms. Encoding the Data
packet (name /a, content [104, 105], ttl_ms 5000) and decoding it back yields
ttl_ms 10000, not 5000, so decode(encode p) differs from p on a transmittable
field other than created_at. -/
theorem C1_data_ttl_counterexample :
    Data.decode (Data.encode ⟨⟨[[97]]⟩, [104, 105], 5000⟩) =
      .ok ⟨⟨[[97]]⟩, [104, 105], 10000⟩ ∧
    Data.decode (Data.encode ⟨⟨[[97]]⟩, [104, 105], 5000⟩) ≠
      .ok ⟨⟨[[97]]⟩, [104, 105], 5000⟩ := by
  constructor
  · decide
  · decide

/-- C1 (amended): for every well-formed Interest, decode after encode restores
every field; for every well-formed Data, decode after encode restores name and
content while ttl_ms decodes to the constant 10000 (and created_at is
regenerated locally), and re-encoding the decoded value reproduces the wire
bytes, so encode(decode b) = b on every canonically encoded packet. -/
theorem C1_codec_roundtrip_amended :
    (∀ i : Interest, i.wfP → Interest.decode (Interest.encode i) = .ok i) ∧
    (∀ d : Data, d.wfP →
      Data.decode (Data.encode d) = .ok ⟨d.name, d.content, 10000⟩ ∧
      Data.encode ⟨d.name, d.content, 10000⟩ = Data.encode d) := by
  refine ⟨fun i hi => interest_decode_encode i hi,
          fun d hd => ⟨data_decode_encode d hd, ?_⟩⟩
  unfold Data.encode
  rfl

/-- C1 (witness): the amended roundtrip evaluated on the Interest
(name /a, nonce 7, lifetime 1000, hop limit 3, can-be-prefix set) and the Data
(name /b, content [1, 2], ttl_ms 5000). -/
theorem C1_codec_roundtrip_amended_witness :
    Interest.decode (Interest.encode ⟨⟨[[97]]⟩, 7, 1000, some 3, true, false⟩) =
      .ok ⟨⟨[[97]]⟩, 7, 1000, some 3, true, false⟩ ∧
    Data.decode (Data.encode ⟨⟨[[98]]⟩, [1, 2], 5000⟩) = .ok ⟨⟨[[98]]⟩, [1, 2], 10000⟩ :=
  ⟨C1_codec_roundtrip_amended.1 ⟨⟨[[97]]⟩, 7, 1000, some 3, true, false⟩ (by decide),
   (C1_codec_roundtrip_amended.2 ⟨⟨[[98]]⟩, [1, 2], 5000⟩ (by decide)).1⟩

/-- C2 (counterexample): with a route stored for the one-component prefix /a
(key (fnv1a of the bytes of component a, 1), face 7) and the looked-up name
/a/b, the probe sequence the claim asserts finds face 7 at the length-1
prefix, but the code finds no route: the eBPF loop probes every length with
the one full-name hash it was given (whether that is the FNV-1a of the
concatenated components or the userspace textual-form hash), and the
userspace get_route probes only the single exact key of the full name. -/
theorem C2_lpm_counterexample :
    claimedLpm [(⟨fnv1a [97], 1⟩, ⟨7, 0⟩)] ⟨[[97], [98]]⟩ = some 7 ∧
    longest_prefix_match [(⟨fnv1a [97], 1⟩, ⟨7, 0⟩)] (fnv1a [97, 98]) = none ∧
    longest_prefix_match [(⟨fnv1a [97], 1⟩, ⟨7, 0⟩)]
      (compute_prefix_hash ⟨[[97], [98]]⟩) = none ∧
    get_route [(⟨fnv1a [97], 1⟩, ⟨7, 0⟩)] ⟨[[97], [98]]⟩ = none := by
  refine ⟨by decide, by decide, by decide, by decide⟩

/-- C2 (amended): the eBPF longest_prefix_match probes the seventeen keys
(h, 16), (h, 15), ..., (h, 0) with the single caller-supplied hash h - it does
not hash each prefix - and returns the face_id of the first key present in
that order; with none present the result is no route. The userspace get_route
probes only the single key (compute_prefix_hash N, number of components of N
as u8) and performs no per-prefix walk at all. -/
theorem C2_fib_lookup_amended :
    (∀ (t : FibTable) (h : Nat), longest_prefix_match t h = descendingProbe t h) ∧
    (∀ (t : FibTable) (n : Name),
      get_route t n = fibGet t ⟨compute_prefix_hash n, n.components.length % 256⟩) :=
  ⟨longest_prefix_match_eq_descending, fun _ _ => rfl⟩

/-- C3 (counterexample): for the one-component name /a the table-key hash the
userspace FIB computes is FNV-1a of the textual bytes slash-a, not FNV-1a of
the bare component byte a as the claim asserts. -/
theorem C3_prefix_hash_counterexample :
    compute_prefix_hash ⟨[[97]]⟩ ≠ fnv1a (List.flatten [[97]]) ∧
    compute_prefix_hash ⟨[[97]]⟩ = fnv1a [47, 97] := by
  constructor
  · decide
  · decide

/-- C3 (amended): the userspace FIB key hash (used by add_route, remove_route
and get_route through compute_prefix_hash) is the 32-bit FNV-1a (offset basis
2166136261, prime 16777619) of the textual form of the name - for names whose
components are all printable, each component's bytes preceded by a slash
separator byte 47 - not of the bare concatenated component bytes; the
kernel-side compute_name_hash is the same FNV-1a over the first len bytes of
whatever buffer it is handed. -/
theorem C3_prefix_hash_amended :
    (∀ n : Name, n.components ≠ [] → (∀ c ∈ n.components, c.all printableByte) →
       compute_prefix_hash n = fnv1a (n.components.flatMap (fun c => 47 :: c))) ∧
    (∀ (data : List Nat) (len : Nat), compute_name_hash data len = fnv1a (data.take len)) := by
  constructor
  · intro n hne hall
    unfold compute_prefix_hash nameDisplayBytes
    rw [if_neg hne]
    have hcong : n.components.map (fun c => 47 :: componentDisplayBytes c) =
        n.components.map (fun c => 47 :: c) := by
      apply List.map_congr_left
      intro c hc
      simp [componentDisplayBytes, hall c hc]
    rw [List.flatMap_def, List.flatMap_def, hcong]
  · intro data len
    rfl

/-- C3 (witness): the amended hash characterisation evaluated on the
two-component name /a/b and on a raw three-byte buffer with len 2. -/
theorem C3_prefix_hash_amended_witness :
    compute_prefix_hash ⟨[[97], [98]]⟩ =
      fnv1a (([[97], [98]] : List (List Nat)).flatMap (fun c => 47 :: c)) ∧
    compute_name_hash [97, 98, 99] 2 = fnv1a ([97, 98, 99].take 2) :=
  ⟨C3_prefix_hash_amended.1 ⟨[[97], [98]]⟩ (by decide) (by decide),
   C3_prefix_hash_amended.2 [97, 98, 99] 2⟩

/-- C4 (counterexample): an Interest that misses the empty CS, is no PIT
duplicate, is inserted into the PIT, and finds no route in the empty FIB is
not dropped and the PIT is not restored: try_ndn_xdp returns XDP_PASS and the
freshly inserted PIT entry for (name_hash 1, name_len 1, nonce 1) remains. -/
theorem C4_no_route_counterexample :
    process_interest [] [] [] ⟨1, 1, 1, 1, 0⟩ =
      (XdpAction.pass, [(⟨1, 1, 1⟩, ⟨0, 1⟩)]) ∧
    process_interest [] [] [] ⟨1, 1, 1, 1, 0⟩ ≠ (XdpAction.drop, []) := by
  constructor
  · decide
  · decide

/-- C4 (amended): when the CS misses, the Interest is no PIT duplicate, and
the FIB lookup finds no route, try_ndn_xdp passes the packet to userspace
(XDP_PASS, main.rs line 176) and leaves the just-inserted PIT entry for
(name_hash, name_len, nonce) in the table; nothing is dropped and the PIT is
not restored. -/
theorem C4_no_route_amended (cs : CsTable) (pit : PitTable) (fib : FibTable)
    (inp : XdpInterestInput)
    (hcs : cs_lookup cs inp.name_hash = false)
    (hdup : pit_has_duplicate pit ⟨inp.name_hash, inp.name_len, inp.nonce⟩ = false)
    (hfib : find_next_hop fib inp.name_hash = none) :
    process_interest cs pit fib inp =
      (XdpAction.pass,
       pit_add_entry pit ⟨inp.name_hash, inp.name_len, inp.nonce⟩
         ⟨inp.timestamp, inp.ingress_ifindex % 65536⟩) := by
  unfold process_interest
  rw [hcs]
  simp only [Bool.false_eq_true, if_false]
  rw [hdup]
  simp only [Bool.false_eq_true, if_false, hfib]

/-- C4 (witness): the amended no-route behaviour evaluated on empty tables and
the Interest inputs (name_hash 2, name_len 3, nonce 4, ifindex 5, time 6). -/
theorem C4_no_route_amended_witness :
    process_interest [] [] [] ⟨2, 3, 4, 5, 6⟩ =
      (XdpAction.pass, pit_add_entry [] ⟨2, 3, 4⟩ ⟨6, 5⟩) :=
  C4_no_route_amended [] [] [] ⟨2, 3, 4, 5, 6⟩ (by decide) (by decide) (by decide)

/-- C5 (counterexample): two concurrent express_interest calls for the same
name (waiters 1 then 2) followed by one matching Data do not both receive the
Data: the second insert replaces waiter 1, whose call completes with the
channel-closed error, and only waiter 2 is fulfilled. -/
theorem C5_aggregation_counterexample :
    (runSession [SessionEvent.express [97] 1, SessionEvent.express [97] 2,
                 SessionEvent.dataArrives [97]]).resolved =
      [(1, WaiterOutcome.channelClosed), (2, WaiterOutcome.fulfilled)] ∧
    (1, WaiterOutcome.fulfilled) ∉
      (runSession [SessionEvent.express [97] 1, SessionEvent.express [97] 2,
                   SessionEvent.dataArrives [97]]).resolved := by
  constructor
  · decide
  · decide

/-- C5 (amended): concurrently outstanding express_interest calls for one name
do share the single map key, but each new call's insert replaces the previous
waiter, which completes with the channel-closed error; the first matching Data
fulfils exactly the most recent caller and removes the entry. For any chain of
calls w, wids... followed by one matching Data: the map ends empty, the
fulfilled waiter is exactly the last one, and the channel-closed waiters are
exactly all earlier ones. -/
theorem C5_waiter_chain_amended (name : List Nat) (w : Nat) (wids : List Nat) :
    runSession ((w :: wids).map (SessionEvent.express name) ++
        [SessionEvent.dataArrives name]) = ⟨[], chainResults w wids⟩ ∧
    (∀ x, ((x, WaiterOutcome.fulfilled) ∈ chainResults w wids ↔ x = wids.getLastD w)) ∧
    (∀ x, ((x, WaiterOutcome.channelClosed) ∈ chainResults w wids ↔
       x ∈ (w :: wids).dropLast)) := by
  refine ⟨?_, chainResults_fulfilled wids w, chainResults_closed wids w⟩
  unfold runSession
  simp only [List.map_cons, List.cons_append, List.foldl_cons]
  have hstep : sessionStep ⟨[], []⟩ (SessionEvent.express name w) = ⟨[(name, w)], []⟩ := by
    simp [sessionStep, pendingLookup, pendingInsert]
  rw [hstep]
  have hc := session_chain name wids w []
  simpa using hc

/-- C6: evaluation of the code at the failing input. Name::is_prefix_of zips
the component lists and never compares lengths, so the two-component name
/a/b is reported as a prefix of the one-component name /a, although it has
strictly more components - contradicting the claimed (and intended) prefix
semantics, under which no name is a prefix of a shorter one. -/
theorem C6_is_prefix_of_eval :
    Name.is_prefix_of ⟨[[97], [98]]⟩ ⟨[[97]]⟩ = true ∧
    (⟨[[97], [98]]⟩ : Name).components.length > (⟨[[97]]⟩ : Name).components.length := by
  constructor
  · decide
  · decide

/-- C7: the TLV decoders are total and checked. A length field whose first
byte is 255 is rejected with an error; when the decoded length exceeds the
remaining bytes TlvElement::decode returns an error; a successful decode
consumed the two-plus header bytes and exactly the announced value bytes from
the input; and on every input the decoders return either a value or an error
(the Lean embedding is a total function, mirroring the panic-free Rust code
whose only exits are Ok and Err). -/
theorem C7_tlv_decoder_checked :
    (∀ buf : List Nat, decode_tlv_length (255 :: buf) =
       .error "64-bit TLV lengths not supported") ∧
    (∀ (buf r1 : List Nat) (t len : Nat) (r2 : List Nat),
       decode_tlv_type buf = .ok (t, r1) → decode_tlv_length r1 = .ok (len, r2) →
       r2.length < len → ∃ m, TlvElement.decode buf = .error m) ∧
    (∀ (buf : List Nat) (e : TlvElement) (rest : List Nat),
       TlvElement.decode buf = .ok (e, rest) →
       e.value.length + rest.length + 2 ≤ buf.length) ∧
    (∀ buf : List Nat, (∃ er, TlvElement.decode buf = .ok er) ∨
       (∃ m, TlvElement.decode buf = .error m)) := by
  refine ⟨?_, ?_, ?_, ?_⟩
  · intro buf
    simp [decode_tlv_length]
  · intro buf r1 t len r2 hty hlen hlt
    unfold TlvElement.decode
    by_cases h2 : buf.length < 2
    · rw [if_pos h2]
      exact ⟨_, rfl⟩
    · rw [if_neg h2]
      match buf with
      | b :: tl =>
        simp only [decode_tlv_type] at hty
        simp only [Except.ok.injEq, Prod.mk.injEq] at hty
        rw [← hty.2] at hlen
        simp only [decode_tlv_type, hlen]
        rw [if_pos hlt]
        exact ⟨_, rfl⟩
  · intro buf e rest h
    unfold TlvElement.decode at h
    by_cases h2 : buf.length < 2
    · rw [if_pos h2] at h
      exact absurd h (by simp)
    · rw [if_neg h2] at h
      match buf with
      | [] => simp at h2
      | b :: tl =>
        simp only [decode_tlv_type] at h
        cases hlen : decode_tlv_length tl with
        | error m => rw [hlen] at h; exact absurd h (by simp)
        | ok pr =>
          obtain ⟨len, r2⟩ := pr
          rw [hlen] at h
          simp only at h
          by_cases h3 : r2.length < len
          · rw [if_pos h3] at h
            exact absurd h (by simp)
          · rw [if_neg h3] at h
            simp only [Except.ok.injEq, Prod.mk.injEq] at h
            have hshr := decode_tlv_length_shrinks tl len r2 hlen
            have hv : e.value.length = len := by
              rw [← h.1]
              simp only [List.length_take]
              omega
            have hr : rest.length = r2.length - len := by
              rw [← h.2]
              simp
            simp only [List.length_cons]
            omega
  · intro buf
    cases h : TlvElement.decode buf with
    | error m => exact Or.inr ⟨m, rfl⟩
    | ok er => exact Or.inl ⟨er, rfl⟩

/-- C7 (witness): the range check applied to the concrete buffer
[7, 5, 1] - a TLV of type 7 announcing five value bytes with only one byte
remaining - which TlvElement::decode rejects. -/
theorem C7_tlv_decoder_checked_witness :
    ∃ m, TlvElement.decode [7, 5, 1] = .error m :=
  C7_tlv_decoder_checked.2.1 [7, 5, 1] [5, 1] 7 5 [1] rfl rfl (by decide)

/-- C8: fragmentation round-trips by concatenation. For every non-empty
packet and fragment size at least 1, assembling the produced fragments
succeeds and returns the original bytes, every fragment is at most the
fragment size; assembling an empty fragment collection returns an error. -/
theorem C8_fragmentation_roundtrip :
    (∀ (p : List Nat) (s : Nat), p ≠ [] → 1 ≤ s →
       assemble_fragments (fragment_packet p s) = .ok p ∧
       ∀ f ∈ fragment_packet p s, f.length ≤ s) ∧
    assemble_fragments [] = .error "No fragments to assemble" := by
  constructor
  · intro p s hp hs
    have hflat : (fragment_packet p s).flatten = p :=
      fragmentF_flatten p.length p s le_rfl hs
    constructor
    · unfold assemble_fragments
      have hsum : ((fragment_packet p s).map List.length).sum = p.length := by
        rw [← List.length_flatten, hflat]
      rw [hsum, if_neg (by simpa [List.length_eq_zero] using hp)]
      rw [hflat]
    · intro f hf
      exact fragmentF_chunk_length p.length p s f hf
  · rfl

/-- C8 (witness): the roundtrip evaluated on the packet [1, 2, 3] with
fragment size 2. -/
theorem C8_fragmentation_roundtrip_witness :
    assemble_fragments (fragment_packet [1, 2, 3] 2) = .ok [1, 2, 3] ∧
    ∀ f ∈ fragment_packet [1, 2, 3] 2, f.length ≤ 2 :=
  C8_fragmentation_roundtrip.1 [1, 2, 3] 2 (by decide) (by decide)

/-- C9: Interest::decode applies silent defaults. Over any Interest packet
whose inner elements are the list es (well-formed and within the u32 length
field): if every NONCE element lacks an exactly-4-byte value (covering
absence) the decoded nonce is 0; if no InterestLifetime element occurs the
decoded lifetime_ms is 4000; if every Selectors element is shorter than two
bytes (covering absence) both selector flags decode false; an inner element of
unrecognized type is skipped without error or state change; and - when every
Name element present parses - decoding fails exactly when no Name element
occurs. -/
theorem C9_interest_decode_defaults (es : List TlvElement)
    (hwf : ∀ e ∈ es, e.wf) (hlen : (encodeElems es).length < 4294967296) :
    (∀ i : Interest,
       Interest.decode (TlvElement.encode ⟨TLV_INTEREST, encodeElems es⟩) = .ok i →
       ((∀ e ∈ es, e.tlv_type = TLV_NONCE → e.value.length ≠ 4) → i.nonce = 0) ∧
       ((∀ e ∈ es, e.tlv_type ≠ TLV_INTEREST_LIFETIME) → i.lifetime_ms = 4000) ∧
       ((∀ e ∈ es, e.tlv_type = TLV_SELECTORS → e.value.length < 2) →
          i.canBePrefix = false ∧ i.mustBeFresh = false)) ∧
    (∀ (acc : InterestAcc) (e : TlvElement),
       e.tlv_type ≠ TLV_NAME → e.tlv_type ≠ TLV_NONCE →
       e.tlv_type ≠ TLV_INTEREST_LIFETIME → e.tlv_type ≠ TLV_SELECTORS →
       e.tlv_type ≠ TLV_HOP_LIMIT → interestStep acc e = .ok acc) ∧
    ((∀ e ∈ es, e.tlv_type = TLV_NAME → (Name.from_tlv e).isOk) →
       ((∃ m, Interest.decode (TlvElement.encode ⟨TLV_INTEREST, encodeElems es⟩)
           = .error m) ↔ ∀ e ∈ es, e.tlv_type ≠ TLV_NAME)) := by
  refine ⟨?_, fun acc e h1 h2 h3 h4 h5 => interestStep_skips_unknown acc e h1 h2 h3 h4 h5, ?_⟩
  · intro i hdec
    rw [interest_decode_packet es hwf hlen] at hdec
    cases hfold : stepList interestStep interestInit es with
    | error m => rw [hfold] at hdec; exact absurd hdec (by simp)
    | ok acc =>
      rw [hfold] at hdec
      simp only at hdec
      cases hn : acc.name with
      | none => rw [hn] at hdec; exact absurd hdec (by simp)
      | some n =>
        rw [hn] at hdec
        simp only [Except.ok.injEq] at hdec
        subst hdec
        have hf := stepList_interest_fields es interestInit acc hfold
        refine ⟨?_, ?_, ?_⟩
        · intro hno
          have hacc := hf.2.1 hno
          simp only [interestInit] at hacc
          simp [hacc]
        · intro hno
          have hacc := hf.2.2.1 hno
          simp only [interestInit] at hacc
          simp [hacc]
        · intro hno
          have hacc := hf.2.2.2.1 hno
          simp only [interestInit] at hacc
          exact ⟨by simp [hacc.1], by simp [hacc.2]⟩
  · intro hparse
    constructor
    · rintro ⟨m, herr⟩
      by_contra hcon
      push_neg at hcon
      obtain ⟨e, he, h7⟩ := hcon
      obtain ⟨r, hr, hrsome⟩ := stepList_interest_ok es interestInit hparse
      have hsome := hrsome (Or.inr ⟨e, he, h7⟩)
      rw [interest_decode_packet es hwf hlen] at herr
      rw [hr] at herr
      simp only at herr
      cases hn : r.name with
      | none => rw [hn] at hsome; simp at hsome
      | some n => rw [hn] at herr; simp at herr
    · intro hnone
      obtain ⟨r, hr, _⟩ := stepList_interest_ok es interestInit hparse
      have hf := stepList_interest_fields es interestInit r hr
      have hrname : r.name = none := by
        have hx := hf.1 hnone
        simpa [interestInit] using hx
      refine ⟨"Interest missing name", ?_⟩
      rw [interest_decode_packet es hwf hlen, hr]
      simp only [hrname]

/-- C9 (witness): the defaults evaluated on the packet whose only inner
element is the Name /a (decoded nonce 0, lifetime 4000), and the
missing-name failure evaluated on a packet holding only a Selectors
element. -/
theorem C9_interest_decode_defaults_witness :
    ((⟨⟨[[97]]⟩, 0, 4000, none, false, false⟩ : Interest).nonce = 0 ∧
     (⟨⟨[[97]]⟩, 0, 4000, none, false, false⟩ : Interest).lifetime_ms = 4000) ∧
    (∃ m, Interest.decode (TlvElement.encode
        ⟨TLV_INTEREST, encodeElems [⟨TLV_SELECTORS, [1, 1]⟩]⟩) = .error m) := by
  have h := C9_interest_decode_defaults [⟨TLV_NAME, [8, 1, 97]⟩] (by decide) (by decide)
  have hdec : Interest.decode (TlvElement.encode
      ⟨TLV_INTEREST, encodeElems [⟨TLV_NAME, [8, 1, 97]⟩]⟩) =
      .ok ⟨⟨[[97]]⟩, 0, 4000, none, false, false⟩ := by decide
  have h2 := C9_interest_decode_defaults [⟨TLV_SELECTORS, [1, 1]⟩] (by decide) (by decide)
  exact ⟨⟨(h.1 _ hdec).1 (by decide), (h.1 _ hdec).2.1 (by decide)⟩,
         (h2.2.2 (by decide)).mpr (by decide)⟩

/-- C10: a Data packet's ttl_ms is never on the wire. Data::encode writes only
the Name and Content elements, so two Data values that agree on name and
content encode identically whatever their ttl_ms; every successfully decoded
Data carries the constant ttl_ms 10000 (and a locally regenerated
creation_time, which the embedding omits); and a Data packet without a
Content element decodes with empty content. -/
theorem C10_data_ttl_not_on_wire :
    (∀ d d' : Data, d.name = d'.name → d.content = d'.content →
       Data.encode d = Data.encode d') ∧
    (∀ (bytes : List Nat) (p : Data), Data.decode bytes = .ok p → p.ttl_ms = 10000) ∧
    (∀ n : Name, n.wf →
       Data.decode (TlvElement.encode ⟨TLV_DATA, encodeElems [n.to_tlv]⟩) =
         .ok ⟨n, [], 10000⟩) := by
  refine ⟨?_, Data.decode_ttl, ?_⟩
  · intro d d' h1 h2
    unfold Data.encode
    rw [h1, h2]
  · intro n hn
    have hwf1 : ∀ e ∈ [n.to_tlv], e.wf := by
      intro e he
      simp only [List.mem_singleton] at he
      rw [he]
      exact name_to_tlv_wf n hn
    have hlen1 : (encodeElems [n.to_tlv]).length < 4294967296 := by
      have h1 := TlvElement.encode_length_le n.to_tlv
      have h2 := name_tlv_value_length n hn
      rw [encodeElems_length]
      simp only [List.map_cons, List.map_nil, List.sum_cons, List.sum_nil]
      omega
    rw [data_decode_packet [n.to_tlv] hwf1 hlen1]
    have hstep : dataStep ⟨none, []⟩ n.to_tlv = .ok ⟨some n, []⟩ := by
      have hft : Name.from_tlv ⟨7, encodeElems (List.map componentToTlv n.components)⟩
          = .ok n := Name.from_to_tlv n hn
      simp [dataStep, Name.to_tlv, TLV_NAME, hft]
    simp only [stepList, hstep]

/-- C10 (witness): encode ignoring ttl_ms evaluated on two Data values for /a
differing only in ttl_ms; the decoded-ttl constant evaluated on the encoding
of a Data for /b sent with ttl_ms 3; the empty-content default evaluated on a
name-only packet for /c. -/
theorem C10_data_ttl_not_on_wire_witness :
    Data.encode ⟨⟨[[97]]⟩, [5], 1⟩ = Data.encode ⟨⟨[[97]]⟩, [5], 99999⟩ ∧
    (⟨⟨[[98]]⟩, [], 10000⟩ : Data).ttl_ms = 10000 ∧
    Data.decode (TlvElement.encode ⟨TLV_DATA, encodeElems [(⟨[[99]]⟩ : Name).to_tlv]⟩) =
      .ok ⟨⟨[[99]]⟩, [], 10000⟩ :=
  ⟨C10_data_ttl_not_on_wire.1 ⟨⟨[[97]]⟩, [5], 1⟩ ⟨⟨[[97]]⟩, [5], 99999⟩ rfl rfl,
   C10_data_ttl_not_on_wire.2.1 (Data.encode ⟨⟨[[98]]⟩, [], 3⟩) ⟨⟨[[98]]⟩, [], 10000⟩
     (by decide),
   C10_data_ttl_not_on_wire.2.2 ⟨[[99]]⟩ (by decide)⟩

